import Mathlib

/-!
Verification of the transcript post-processing pipeline of
`src/eye_test_transcriber.py`.

The two pure functions of the source, `clean_spoken_text` and
`label_speakers`, are embedded over `List Char`.  Python regular
expressions are specialised to the exact pattern family used by the
fixed correction table: every pattern is `\b<stem><c>+\b` or
`\b<stem>\b` with a literal lowercase stem, matched with
`re.IGNORECASE` (modelled as ASCII case folding, which is what the
table exercises) and substituted globally by `re.sub`'s left-to-right
scan.  `\s` is modelled as the six ASCII whitespace characters that
Python's `\s` always contains.
-/

namespace EyeTest

/-! ## Definitions -/

/-- Python word character (`\w` over the ASCII range): letters, digits, underscore. -/
def isWordChar (c : Char) : Bool := c.isAlphanum || c == '_'

/-- Python whitespace (`\s` over the ASCII range). -/
def isWS (c : Char) : Bool :=
  c == ' ' || c == '\t' || c == '\n' || c == '\r' || c == '\x0b' || c == '\x0c'

/-- Case-insensitive match of an input character against a lowercase
pattern character, as `re.IGNORECASE` behaves on ASCII. -/
def cieq (c p : Char) : Bool := c == p || (c.isUpper && (c.toNat + 32 == p.toNat))

/-- One entry of the `replacements` table: the regex
`\b <first> <stem> (<plus>+)? \b` together with its replacement text. -/
structure Rule where
  first : Char
  stem : List Char
  plus : Option Char
  repl : List Char
deriving DecidableEq

/-- An ASCII lowercase letter. -/
def lcChar (c : Char) : Bool := c.isLower

/-- The shape every entry of the fixed table has: a lowercase literal
pattern whose replacement consists of word characters only. -/
def GoodRule (r : Rule) : Bool :=
  lcChar r.first && r.stem.all lcChar &&
    (match r.plus with | none => true | some x => lcChar x) &&
    r.repl.all isWordChar

/-- Match the literal stem characters at the front of the input,
case-insensitively; return the rest of the input on success. -/
def matchStem : List Char → List Char → Option (List Char)
  | [], cs => some cs
  | _ :: _, [] => none
  | p :: ps, c :: cs => if cieq c p then matchStem ps cs else none

/-- Consume the maximal run of characters matching the `+`-quantified
pattern character (greedy, as the regex engine behaves on this family). -/
def takePlus (x : Char) : List Char → Nat × List Char
  | [] => (0, [])
  | c :: cs =>
    if cieq c x then
      let r := takePlus x cs
      (r.1 + 1, r.2)
    else (0, c :: cs)

/-- A `\b` word boundary holds here, given that the character just
before this point was a word character. -/
def atBoundary : List Char → Bool
  | [] => true
  | c :: _ => !isWordChar c

/-- Try to match a rule's whole regex at the front of the input, the
leading `\b` having been checked by the caller.  Returns the suffix
after the match. -/
def matchRule (r : Rule) (cs : List Char) : Option (List Char) :=
  match cs with
  | [] => none
  | c :: cs =>
    if cieq c r.first then
      match matchStem r.stem cs with
      | none => none
      | some rest =>
        match r.plus with
        | none => if atBoundary rest then some rest else none
        | some x =>
          let t := takePlus x rest
          if 1 ≤ t.1 && atBoundary t.2 then some t.2 else none
    else none

/-- The rule's regex matches this word run exactly (whole-run match). -/
def runMatches (r : Rule) (w : List Char) : Bool := matchRule r w == some []

/-- The left-to-right scan of `re.sub` for one rule.  The fuel argument
bounds recursion depth; any fuel at least the input length gives the
scan's result.  `prevWord` records whether the character just before
the current position is a word character, i.e. whether the pattern's
leading `\b` can hold here. -/
def subFuel (r : Rule) : Nat → Bool → List Char → List Char
  | 0, _, cs => cs
  | _ + 1, _, [] => []
  | fuel + 1, prevWord, c :: cs =>
    if prevWord then c :: subFuel r fuel (isWordChar c) cs
    else
      match matchRule r (c :: cs) with
      | some rest => r.repl ++ subFuel r fuel true rest
      | none => c :: subFuel r fuel (isWordChar c) cs

/-- The scan with its canonical fuel. -/
def subW (r : Rule) (b : Bool) (cs : List Char) : List Char := subFuel r cs.length b cs

/-- `re.sub(pattern, repl, line, flags=re.IGNORECASE)` for one rule:
the scan started at a word boundary (start of string). -/
def sub (r : Rule) (cs : List Char) : List Char := subW r false cs

/-- The `for pattern, repl in replacements.items()` loop of
`clean_spoken_text`: rules applied in table order, each to the output
of the previous one. -/
def applyRules (rs : List Rule) (cs : List Char) : List Char :=
  rs.foldl (fun acc r => sub r acc) cs

/-- `re.sub(r"\s+", " ", line)`: every maximal whitespace run becomes a
single space.  The Boolean state records whether we are inside a run
whose space has already been emitted. -/
def collapseAux : Bool → List Char → List Char
  | _, [] => []
  | inWS, c :: cs =>
    if isWS c then (if inWS then [] else [' ']) ++ collapseAux true cs
    else c :: collapseAux false cs

def collapseWS (cs : List Char) : List Char := collapseAux false cs

/-- Remove the trailing whitespace run (the right half of `str.strip()`). -/
def stripEnd : List Char → List Char
  | [] => []
  | c :: cs =>
    match stripEnd cs with
    | [] => if isWS c then [] else [c]
    | r => c :: r

/-- Python `str.strip()`. -/
def stripWS (cs : List Char) : List Char := stripEnd (List.dropWhile isWS cs)

/-- Python list/string prefix test. -/
def isPrefixL : List Char → List Char → Bool
  | [], _ => true
  | _ :: _, [] => false
  | a :: as, b :: bs => a == b && isPrefixL as bs

/-- Python `pat in s` (substring containment). -/
def containsSub (pat : List Char) : List Char → Bool
  | [] => isPrefixL pat []
  | c :: cs => isPrefixL pat (c :: cs) || containsSub pat cs

def arrow : List Char := ['-', '-', '>']

def webvtt : List Char := ['W', 'E', 'B', 'V', 'T', 'T']

/-- The `replacements` dict of `clean_spoken_text`, in its (insertion)
iteration order. -/
def rules : List Rule :=
  [ ⟨'u', [], some 'h', []⟩,                                        -- \buh+\b   → ""
    ⟨'u', [], some 'm', []⟩,                                        -- \bum+\b   → ""
    ⟨'h', ['a', 'i'], none, ['y', 'e', 's']⟩,                       -- \bhai\b   → yes
    ⟨'o', ['k', 'e'], some 'y', ['o', 'k', 'a', 'y']⟩,              -- \bokey+\b → okay
    ⟨'m', ['a'], none, ['n', 'o', 'w']⟩,                            -- \bma\b    → now
    ⟨'l', ['l'], none, ['w', 'i', 'l', 'l']⟩,                       -- \bll\b    → will
    ⟨'y', ['a'], some 'a', ['y', 'e', 'a', 'h']⟩,                   -- \byaa+\b  → yeah
    ⟨'t', ['r'], some 'u', ['t', 'r', 'u', 'e']⟩,                   -- \btru+\b  → true
    ⟨'c', ['l', 'r', 'e', 'a', 'r'], none, ['c', 'l', 'e', 'a', 'r']⟩,
    ⟨'p', ['l', 'a', 'e', 's', 'e'], none, ['p', 'l', 'e', 'a', 's', 'e']⟩,
    ⟨'t', ['e', 't', 's'], none, ['t', 'e', 's', 't']⟩,             -- \btets\b  → test
    ⟨'e', ['y'], none, ['e', 'y', 'e']⟩ ]                           -- \bey\b    → eye

/-- The pass-through guard of `clean_spoken_text`:
`not line or "-->" in line or line.strip() == "WEBVTT"`. -/
def passThrough (line : List Char) : Bool :=
  line.isEmpty || containsSub arrow line || stripWS line == webvtt

/-- `clean_spoken_text` of the source. -/
def clean_spoken_text (line : List Char) : List Char :=
  if passThrough line then line
  else stripWS (collapseWS (applyRules rules line))

/-! ### The speaker labeler -/

/-- Python `text.split("\n")`. -/
def splitNL : List Char → List (List Char)
  | [] => [[]]
  | c :: cs =>
    if c == '\n' then [] :: splitNL cs
    else
      match splitNL cs with
      | r :: rs => (c :: r) :: rs
      | [] => [[c]]

/-- Python `text.split("\n\n")`: split on every non-overlapping
blank-line separator, scanning left to right. -/
def splitNL2 : List Char → List (List Char)
  | [] => [[]]
  | [c] => [[c]]
  | c1 :: c2 :: cs =>
    if c1 == '\n' && c2 == '\n' then [] :: splitNL2 cs
    else
      match splitNL2 (c2 :: cs) with
      | r :: rs => (c1 :: r) :: rs
      | [] => [[c1]]

/-- Python `sep.join(parts)`. -/
def joinSep (sep : List Char) : List (List Char) → List Char
  | [] => []
  | [x] => x
  | x :: xs => x ++ sep ++ joinSep sep xs

def nl1 : List Char := ['\n']

def nl2 : List Char := ['\n', '\n']

/-- `"-->" in block`. -/
def hasArrow (b : List Char) : Bool := containsSub arrow b

/-- `parts[-1] = pre + parts[-1]`. -/
def prefixLast (pre : List Char) : List (List Char) → List (List Char)
  | [] => []
  | [x] => [pre ++ x]
  | x :: xs => x :: prefixLast pre xs

/-- The body of the timing branch of `label_speakers`: split the block
on newlines, prefix the last line with `"<speaker>: "` when the block
has more than one line, and rejoin. -/
def tagBlock (speaker : List Char) (block : List Char) : List Char :=
  let parts := splitNL block
  let parts2 := if 1 < parts.length then prefixLast (speaker ++ [':', ' ']) parts else parts
  joinSep nl1 parts2

/-- `"Optometrist" if speaker_toggle else "Patient"`. -/
def speakerFor (toggle : Bool) : List Char :=
  if toggle then "Optometrist".data else "Patient".data

/-- One iteration of the block loop of `label_speakers`: the processed
block together with the toggle state for the next block. -/
def labelBlock (toggle : Bool) (block : List Char) : List Char × Bool :=
  if hasArrow block then (tagBlock (speakerFor toggle) block, !toggle)
  else (block, toggle)

/-- The block loop of `label_speakers`, threading `speaker_toggle`. -/
def labelBlocksAux (toggle : Bool) : List (List Char) → List (List Char) × Bool
  | [] => ([], toggle)
  | b :: bs =>
    let p := labelBlock toggle b
    let q := labelBlocksAux p.2 bs
    (p.1 :: q.1, q.2)

/-- `label_speakers` of the source (`speaker_toggle` starts at `True`,
i.e. at the role `"Optometrist"`). -/
def label_speakers (text : List Char) : List Char :=
  joinSep nl2 (labelBlocksAux true (splitNL2 text)).1

/-! ### The transcription client's backoff -/

/-- Modelled from the spec: the Transcription Client's retry loop is
not present under `src/` (the source calls the service once, with no
chunking or retry); the spec alone gives its backoff formula
"wait `5 * 2^attempt` seconds (attempt counted from 0)". -/
def backoffWait (attempt : Nat) : Nat := 5 * 2 ^ attempt

/-! ### Word-run view of a line

A line decomposes into maximal runs of word characters separated by
single non-word characters.  Because every pattern of the table is
word-boundary delimited on both sides, `re.sub` can only replace whole
runs; this view drives the idempotence proof. -/

inductive Tok where
  | word : List Char → Tok
  | sep : Char → Tok
deriving DecidableEq

def Tok.flat : Tok → List Char
  | word w => w
  | sep c => [c]

def flatT : List Tok → List Char
  | [] => []
  | t :: ts => t.flat ++ flatT ts

/-- The token list does not start with a word run. -/
def headNotWord : List Tok → Prop
  | Tok.word _ :: _ => False
  | _ => True

/-- Well-formed token list: word runs are nonempty runs of word
characters, separators are non-word characters, and no two word runs
are adjacent (runs are maximal). -/
inductive WFT : List Tok → Prop
  | nil : WFT []
  | sep {c : Char} {ts : List Tok} : isWordChar c = false → WFT ts → WFT (Tok.sep c :: ts)
  | word {w : List Char} {ts : List Tok} : w ≠ [] → (∀ c ∈ w, isWordChar c = true) →
      headNotWord ts → WFT ts → WFT (Tok.word w :: ts)

/-- Decompose a line into its word runs and separator characters. -/
def tokenize : List Char → List Tok
  | [] => []
  | c :: cs =>
    if isWordChar c then
      match tokenize cs with
      | Tok.word w :: ts => Tok.word (c :: w) :: ts
      | ts => Tok.word [c] :: ts
    else Tok.sep c :: tokenize cs

/-- What one substitution pass does to one token, as text. -/
def subTok (r : Rule) : Tok → List Char
  | Tok.word w => if runMatches r w then r.repl else w
  | Tok.sep c => [c]

def subToksFlat (r : Rule) : List Tok → List Char
  | [] => []
  | t :: ts => subTok r t ++ subToksFlat r ts

/-- What one substitution pass does to one token list, as tokens. -/
def subTs (r : Rule) : List Tok → List Tok
  | [] => []
  | Tok.sep c :: ts => Tok.sep c :: subTs r ts
  | Tok.word w :: ts =>
    (if runMatches r w then (if r.repl = [] then [] else [Tok.word r.repl]) else [Tok.word w])
      ++ subTs r ts

/-- The word runs of a token list. -/
def wordsT : List Tok → List (List Char)
  | [] => []
  | Tok.word w :: ts => w :: wordsT ts
  | Tok.sep _ :: ts => wordsT ts

/-- The word runs of a line. -/
def wordsOf (cs : List Char) : List (List Char) := wordsT (tokenize cs)

/-- No two adjacent whitespace characters. -/
def noAdjWS : List Char → Bool
  | [] => true
  | [_] => true
  | c1 :: c2 :: cs => !(isWS c1 && isWS c2) && noAdjWS (c2 :: cs)

/-! ## Character lemmas -/

theorem lcChar_word {c : Char} (h : lcChar c = true) : isWordChar c = true := by
  simp only [lcChar] at h
  simp [isWordChar, Char.isAlphanum, Char.isAlpha, h]

theorem cieq_of_nonword {c p : Char} (hc : isWordChar c = false) (hp : lcChar p = true) :
    cieq c p = false := by
  have hword := lcChar_word hp
  simp only [cieq]
  have h1 : (c == p) = false := by
    apply beq_eq_false_iff_ne.mpr
    intro he
    rw [he, hword] at hc
    simp at hc
  have h2 : c.isUpper = false := by
    by_contra hcu
    rw [Bool.not_eq_false] at hcu
    have hcw : isWordChar c = true := by
      simp [isWordChar, Char.isAlphanum, Char.isAlpha, hcu]
    rw [hcw] at hc
    simp at hc
  rw [h1, h2]
  rfl

theorem isWS_nonword {c : Char} (h : isWS c = true) : isWordChar c = false := by
  simp only [isWS, Bool.or_eq_true, beq_iff_eq] at h
  rcases h with ((((h | h) | h) | h) | h) | h <;> subst h <;> decide

theorem word_not_ws {c : Char} (h : isWordChar c = true) : isWS c = false := by
  by_contra hws
  rw [Bool.not_eq_false] at hws
  rw [isWS_nonword hws] at h
  exact absurd h (by simp)

/-! ## Matcher lemmas -/

theorem matchStem_suffix {ps cs rest : List Char} (h : matchStem ps cs = some rest) :
    rest.IsSuffix cs := by
  induction ps generalizing cs with
  | nil => simp [matchStem] at h; simp [h]
  | cons p ps ih =>
    match cs with
    | [] => simp [matchStem] at h
    | c :: cs =>
      simp only [matchStem] at h
      split at h
      · exact (ih h).trans (List.suffix_cons c cs)
      · exact absurd h (by simp)

theorem takePlus_suffix (x : Char) (cs : List Char) :
    (takePlus x cs).2.IsSuffix cs := by
  induction cs with
  | nil => simp [takePlus]
  | cons c cs ih =>
    simp only [takePlus]
    split
    · exact ih.trans (List.suffix_cons c cs)
    · exact List.suffix_refl _

theorem matchRule_length {r : Rule} {c : Char} {cs rest : List Char}
    (h : matchRule r (c :: cs) = some rest) : rest.length ≤ cs.length := by
  simp only [matchRule] at h
  split at h
  · split at h
    · exact absurd h (by simp)
    · rename_i rest1 hstem
      have h1 : rest1.length ≤ cs.length := (matchStem_suffix hstem).length_le
      split at h
      · split at h
        · injection h with h; subst h; omega
        · exact absurd h (by simp)
      · rename_i x hx
        split at h
        · injection h with h
          have h2 := (takePlus_suffix x rest1).length_le
          subst h; omega
        · exact absurd h (by simp)
  · exact absurd h (by simp)

theorem matchRule_nonword_head {r : Rule} {c : Char} {cs : List Char}
    (hc : isWordChar c = false) (hr : GoodRule r = true) :
    matchRule r (c :: cs) = none := by
  have hfirst : lcChar r.first = true := by
    simp only [GoodRule, Bool.and_eq_true] at hr
    exact hr.1.1.1
  simp [matchRule, cieq_of_nonword hc hfirst]

theorem runMatches_nil (r : Rule) : runMatches r [] = false := by
  simp [runMatches, matchRule]

/-! ## Scanner lemmas -/

theorem subFuel_fuel_irrel (r : Rule) :
    ∀ f g b cs, cs.length ≤ f → cs.length ≤ g → subFuel r f b cs = subFuel r g b cs := by
  intro f
  induction f with
  | zero =>
    intro g b cs hf _
    have hcs : cs = [] := List.length_eq_zero.mp (Nat.le_zero.mp hf)
    subst hcs
    cases g <;> rfl
  | succ f ih =>
    intro g b cs hf hg
    match cs with
    | [] => cases g <;> rfl
    | c :: cs =>
      match g with
      | 0 => simp at hg
      | g + 1 =>
        simp only [List.length_cons, Nat.add_le_add_iff_right] at hf hg
        simp only [subFuel]
        split
        · rw [ih g (isWordChar c) cs hf hg]
        · cases hm : matchRule r (c :: cs) with
          | some rest =>
            have hlen := matchRule_length hm
            show r.repl ++ subFuel r f true rest = r.repl ++ subFuel r g true rest
            rw [ih g true rest (le_trans hlen hf) (le_trans hlen hg)]
          | none =>
            show c :: subFuel r f (isWordChar c) cs = c :: subFuel r g (isWordChar c) cs
            rw [ih g (isWordChar c) cs hf hg]

theorem subW_nil (r : Rule) (b : Bool) : subW r b [] = [] := rfl

theorem subW_cons_true (r : Rule) (c : Char) (cs : List Char) :
    subW r true (c :: cs) = c :: subW r (isWordChar c) cs := rfl

theorem subW_match {r : Rule} {c : Char} {cs rest : List Char}
    (h : matchRule r (c :: cs) = some rest) :
    subW r false (c :: cs) = r.repl ++ subW r true rest := by
  have hlen := matchRule_length h
  show subFuel r (cs.length + 1) false (c :: cs) = _
  simp only [subFuel, if_neg (by simp : ¬(false = true)), h]
  rw [subFuel_fuel_irrel r cs.length rest.length true rest hlen le_rfl]
  rfl

theorem subW_nomatch {r : Rule} {c : Char} {cs : List Char}
    (h : matchRule r (c :: cs) = none) :
    subW r false (c :: cs) = c :: subW r (isWordChar c) cs := by
  show subFuel r (cs.length + 1) false (c :: cs) = _
  simp only [subFuel, if_neg (by simp : ¬(false = true)), h]
  rfl

theorem subW_cons_nonword {r : Rule} (b : Bool) {c : Char} (cs : List Char)
    (hc : isWordChar c = false) (hr : GoodRule r = true) :
    subW r b (c :: cs) = c :: subW r false cs := by
  cases b with
  | true => rw [subW_cons_true, hc]
  | false => rw [subW_nomatch (matchRule_nonword_head hc hr), hc]

theorem subW_boundary_irrel {r : Rule} (b1 b2 : Bool) {rest : List Char}
    (hb : atBoundary rest = true) (hr : GoodRule r = true) :
    subW r b1 rest = subW r b2 rest := by
  match rest with
  | [] => rfl
  | c :: cs =>
    have hc : isWordChar c = false := by
      simpa [atBoundary] using hb
    rw [subW_cons_nonword b1 cs hc hr, subW_cons_nonword b2 cs hc hr]

theorem subW_word_run_true (r : Rule) (w rest : List Char)
    (hw : ∀ c ∈ w, isWordChar c = true) :
    subW r true (w ++ rest) = w ++ subW r true rest := by
  induction w with
  | nil => rfl
  | cons c w ih =>
    rw [List.cons_append, subW_cons_true, hw c (by simp)]
    rw [ih (fun d hd => hw d (by simp [hd]))]
    rfl

/-! ## Whole-run matching -/

theorem matchStem_append {ps : List Char} (hps : ps.all lcChar = true) :
    ∀ w rest, (∀ c ∈ w, isWordChar c = true) → atBoundary rest = true →
      matchStem ps (w ++ rest) = Option.map (fun s => s ++ rest) (matchStem ps w) := by
  induction ps with
  | nil => intro w rest _ _; rfl
  | cons p ps ih =>
    intro w rest hw hb
    simp only [List.all_cons, Bool.and_eq_true] at hps
    match w with
    | [] =>
      match rest with
      | [] => rfl
      | c :: rest2 =>
        have hc : isWordChar c = false := by simpa [atBoundary] using hb
        simp [matchStem, cieq_of_nonword hc hps.1]
    | c :: w =>
      simp only [List.cons_append, matchStem]
      split
      · exact ih hps.2 w rest (fun d hd => hw d (by simp [hd])) hb
      · rfl

theorem takePlus_append {x : Char} (hx : lcChar x = true) :
    ∀ w rest, (∀ c ∈ w, isWordChar c = true) → atBoundary rest = true →
      takePlus x (w ++ rest) = ((takePlus x w).1, (takePlus x w).2 ++ rest) := by
  intro w
  induction w with
  | nil =>
    intro rest _ hb
    match rest with
    | [] => rfl
    | c :: rest2 =>
      have hc : isWordChar c = false := by simpa [atBoundary] using hb
      simp [takePlus, cieq_of_nonword hc hx]
  | cons c w ih =>
    intro rest hw hb
    simp only [List.cons_append, takePlus, List.append_eq]
    split
    · rw [ih rest (fun d hd => hw d (by simp [hd])) hb]
    · rfl

theorem goodRule_parts {r : Rule} (hr : GoodRule r = true) :
    lcChar r.first = true ∧ r.stem.all lcChar = true ∧
      (∀ x, r.plus = some x → lcChar x = true) ∧ r.repl.all isWordChar = true := by
  simp only [GoodRule, Bool.and_eq_true] at hr
  refine ⟨hr.1.1.1, hr.1.1.2, ?_, hr.2⟩
  intro x hx
  have h := hr.1.2
  rw [hx] at h
  exact h

theorem matchRule_cons (r : Rule) (c : Char) (cs : List Char) :
    matchRule r (c :: cs) =
      if cieq c r.first then
        match matchStem r.stem cs with
        | none => none
        | some rest =>
          match r.plus with
          | none => if atBoundary rest then some rest else none
          | some x =>
            if 1 ≤ (takePlus x rest).1 && atBoundary (takePlus x rest).2 then
              some (takePlus x rest).2
            else none
      else none := rfl

theorem matchRule_run {r : Rule} (hr : GoodRule r = true) (w rest : List Char)
    (hw : ∀ c ∈ w, isWordChar c = true) (hb : atBoundary rest = true) :
    matchRule r (w ++ rest) = if runMatches r w then some rest else none := by
  obtain ⟨hfirst, hstem, hplus, _⟩ := goodRule_parts hr
  match w with
  | [] =>
    rw [runMatches_nil]
    match rest with
    | [] => rfl
    | c :: rest2 =>
      have hc : isWordChar c = false := by simpa [atBoundary] using hb
      simp [matchRule_nonword_head hc hr]
  | c :: w =>
    rw [List.cons_append]
    have hw2 : ∀ d ∈ w, isWordChar d = true := fun d hd => hw d (by simp [hd])
    have hms := matchStem_append hstem w rest hw2 hb
    by_cases hc : cieq c r.first = true
    · cases hs : matchStem r.stem w with
      | none =>
        have hms2 : matchStem r.stem (w ++ rest) = none := by
          rw [hms, hs]; rfl
        simp [runMatches, matchRule_cons, hc, hs, hms2]
      | some s =>
        have hsw : ∀ d ∈ s, isWordChar d = true :=
          fun d hd => hw2 d ((matchStem_suffix hs).subset hd)
        have hms2 : matchStem r.stem (w ++ rest) = some (s ++ rest) := by
          rw [hms, hs]; rfl
        cases hp : r.plus with
        | none =>
          match s, hsw with
          | [], _ =>
            simp [runMatches, matchRule_cons, hc, hs, hms2, hp, hb, atBoundary]
            exact hb
          | d :: s2, hsw =>
            have hd : isWordChar d = true := hsw d (by simp)
            simp [runMatches, matchRule_cons, hc, hs, hms2, hp, atBoundary, hd]
        | some x =>
          have hx : lcChar x = true := hplus x hp
          have htp := takePlus_append hx s rest hsw hb
          have hsfx := takePlus_suffix x s
          cases ht : takePlus x s with
          | mk n s2 =>
            rw [ht] at htp hsfx
            have hs2 : ∀ d ∈ s2, isWordChar d = true :=
              fun d hd => hsw d (hsfx.subset hd)
            match s2, hs2 with
            | [], _ =>
              by_cases hn : 1 ≤ n
              · simp [runMatches, matchRule_cons, hc, hs, hms2, hp, htp, ht, hn, hb,
                  atBoundary]
                exact hb
              · simp [runMatches, matchRule_cons, hc, hs, hms2, hp, htp, ht, hn]
            | d :: s3, hs2 =>
              have hd : isWordChar d = true := hs2 d (by simp)
              simp [runMatches, matchRule_cons, hc, hs, hms2, hp, htp, ht, atBoundary, hd]
    · have hc2 : cieq c r.first = false := by simpa using hc
      simp [runMatches, matchRule_cons, hc2]

theorem runMatches_ne_nil {r : Rule} {w : List Char} (h : runMatches r w = true) :
    w ≠ [] := by
  intro he
  rw [he, runMatches_nil r] at h
  exact absurd h (by simp)

theorem subW_run_match {r : Rule} (hr : GoodRule r = true) {w rest : List Char}
    (hw : ∀ c ∈ w, isWordChar c = true) (hb : atBoundary rest = true)
    (hm : runMatches r w = true) :
    subW r false (w ++ rest) = r.repl ++ subW r true rest := by
  match w with
  | [] => exact absurd rfl (runMatches_ne_nil hm)
  | c :: w =>
    have hmr : matchRule r ((c :: w) ++ rest) = some rest := by
      rw [matchRule_run hr (c :: w) rest hw hb, hm]
      simp
    rw [List.cons_append] at hmr ⊢
    rw [subW_match hmr]

theorem subW_run_nomatch {r : Rule} (hr : GoodRule r = true) (b : Bool) {w rest : List Char}
    (hw : ∀ c ∈ w, isWordChar c = true) (hb : atBoundary rest = true)
    (hm : runMatches r w = false) :
    subW r b (w ++ rest) = w ++ subW r true rest := by
  match w with
  | [] =>
    rw [List.nil_append, List.nil_append]
    exact subW_boundary_irrel b true hb hr
  | c :: w =>
    cases b with
    | true => exact subW_word_run_true r (c :: w) rest hw
    | false =>
      have hmr : matchRule r ((c :: w) ++ rest) = none := by
        rw [matchRule_run hr (c :: w) rest hw hb, hm]
        simp
      rw [List.cons_append] at hmr ⊢
      rw [subW_nomatch hmr, hw c (by simp)]
      rw [subW_word_run_true r w rest (fun d hd => hw d (by simp [hd]))]
      rfl

/-! ## Token structure lemmas -/

theorem atBoundary_flatT {ts : List Tok} (hh : headNotWord ts) (hts : WFT ts) :
    atBoundary (flatT ts) = true := by
  match ts, hts with
  | [], _ => rfl
  | Tok.sep c :: ts, WFT.sep hc _ => simp [flatT, Tok.flat, atBoundary, hc]
  | Tok.word w :: ts, _ => exact absurd hh (by simp [headNotWord])

theorem flatT_eq_nil {ts : List Tok} (hts : WFT ts) (h : flatT ts = []) : ts = [] := by
  match ts, hts with
  | [], _ => rfl
  | Tok.sep c :: ts, _ => simp [flatT, Tok.flat] at h
  | Tok.word w :: ts, WFT.word hne _ _ _ =>
    simp only [flatT, Tok.flat, List.append_eq_nil] at h
    exact absurd h.1 hne

theorem flatT_tokenize (cs : List Char) : flatT (tokenize cs) = cs := by
  induction cs with
  | nil => rfl
  | cons c cs ih =>
    simp only [tokenize]
    split
    · cases h : tokenize cs with
      | nil => rw [h] at ih; simpa [flatT, Tok.flat] using ih
      | cons t ts =>
        cases t with
        | word w =>
          rw [h] at ih
          simp only [flatT, Tok.flat] at ih ⊢
          rw [List.cons_append, ih]
        | sep d =>
          rw [h] at ih
          simpa [flatT, Tok.flat] using ih
    · simpa [flatT, Tok.flat] using ih

theorem WFT_tokenize (cs : List Char) : WFT (tokenize cs) := by
  induction cs with
  | nil => exact WFT.nil
  | cons c cs ih =>
    simp only [tokenize]
    split
    · rename_i hc
      cases h : tokenize cs with
      | nil => exact WFT.word (by simp) (by intro d hd; simp at hd; rwa [hd]) trivial WFT.nil
      | cons t ts =>
        rw [h] at ih
        cases t with
        | word w =>
          cases ih with
          | word hne hw hh hts =>
            refine WFT.word (by simp) ?_ hh hts
            intro d hd
            rcases List.mem_cons.mp hd with h1 | h1
            · rwa [h1]
            · exact hw d h1
        | sep d =>
          exact WFT.word (by simp) (by intro d2 hd2; simp at hd2; rwa [hd2])
            (by simp [headNotWord]) ih
    · rename_i hc
      exact WFT.sep (by simpa using hc) ih

theorem tokenize_cons_word {c : Char} (hc : isWordChar c = true) (cs : List Char) :
    tokenize (c :: cs) =
      match tokenize cs with
      | Tok.word w :: ts => Tok.word (c :: w) :: ts
      | ts => Tok.word [c] :: ts := by
  simp [tokenize, hc]

theorem tokenize_word_run {w : List Char} (hne : w ≠ [])
    (hw : ∀ c ∈ w, isWordChar c = true) (rest : List Char)
    (hb : atBoundary rest = true) :
    tokenize (w ++ rest) = Tok.word w :: tokenize rest := by
  induction w with
  | nil => exact absurd rfl hne
  | cons c w ih =>
    match w with
    | [] =>
      rw [List.cons_append, List.nil_append, tokenize_cons_word (hw c (by simp))]
      match rest with
      | [] => rfl
      | d :: rest2 =>
        have hd : isWordChar d = false := by simpa [atBoundary] using hb
        have h2 : tokenize (d :: rest2) = Tok.sep d :: tokenize rest2 := by
          simp [tokenize, hd]
        rw [h2]
    | c2 :: w2 =>
      have ih2 := ih (by simp) (fun d hd => hw d (by simp [hd]))
      rw [List.cons_append, tokenize_cons_word (hw c (by simp)), ih2]

theorem tokenize_flatT {ts : List Tok} (hts : WFT ts) : tokenize (flatT ts) = ts := by
  induction hts with
  | nil => rfl
  | @sep c ts hc hts ih =>
    simp only [flatT, Tok.flat, List.cons_append, List.nil_append, tokenize, hc]
    simp [ih]
  | @word w ts hne hw hh hts ih =>
    simp only [flatT, Tok.flat]
    rw [tokenize_word_run hne hw (flatT ts) (atBoundary_flatT hh hts), ih]

/-! ## One substitution pass at the token level -/

theorem subW_flatT {r : Rule} (hr : GoodRule r = true) {ts : List Tok} (hts : WFT ts) :
    subW r false (flatT ts) = subToksFlat r ts := by
  induction hts with
  | nil => rfl
  | @sep c ts hc hts ih =>
    simp only [flatT, Tok.flat, List.cons_append, List.nil_append]
    rw [subW_cons_nonword false (flatT ts) hc hr, ih]
    rfl
  | @word w ts hne hw hh hts ih =>
    have hb : atBoundary (flatT ts) = true := atBoundary_flatT hh hts
    simp only [flatT, Tok.flat]
    cases hm : runMatches r w with
    | true =>
      rw [subW_run_match hr hw hb hm]
      rw [subW_boundary_irrel true false hb hr, ih]
      simp [subToksFlat, subTok, hm]
    | false =>
      rw [subW_run_nomatch hr false hw hb hm]
      rw [subW_boundary_irrel true false hb hr, ih]
      simp [subToksFlat, subTok, hm]

theorem flatT_subTs (r : Rule) (ts : List Tok) :
    flatT (subTs r ts) = subToksFlat r ts := by
  induction ts with
  | nil => rfl
  | cons t ts ih =>
    cases t with
    | sep c => simp [subTs, flatT, subToksFlat, subTok, Tok.flat, ih]
    | word w =>
      simp only [subTs, subToksFlat, subTok]
      cases hm : runMatches r w with
      | true =>
        by_cases he : r.repl = []
        · simp [he, flatT, ih]
        · simp [he, flatT, Tok.flat, ih]
      | false => simp [flatT, Tok.flat, ih]

theorem headNotWord_subTs (r : Rule) {ts : List Tok} (hh : headNotWord ts) :
    headNotWord (subTs r ts) := by
  match ts with
  | [] => trivial
  | Tok.sep c :: ts => simp [subTs, headNotWord]
  | Tok.word w :: ts => exact absurd hh (by simp [headNotWord])

theorem WFT_subTs {r : Rule} (hr : GoodRule r = true) {ts : List Tok} (hts : WFT ts) :
    WFT (subTs r ts) := by
  induction hts with
  | nil => exact WFT.nil
  | sep hc _ ih =>
    exact WFT.sep hc ih
  | word hne hw hh hts ih =>
    rename_i w ts
    simp only [subTs]
    cases hm : runMatches r w with
    | true =>
      by_cases he : r.repl = []
      · simpa [he] using ih
      · have hrepl : ∀ c ∈ r.repl, isWordChar c = true := by
          have h := (goodRule_parts hr).2.2.2
          intro d hd
          exact List.all_eq_true.mp h d hd
        simpa [he] using WFT.word he hrepl (headNotWord_subTs r hh) ih
    | false =>
      simpa using WFT.word hne hw (headNotWord_subTs r hh) ih

theorem wordsT_subTs {r : Rule} {ts : List Tok} :
    ∀ w2 ∈ wordsT (subTs r ts), (w2 ∈ wordsT ts ∧ runMatches r w2 = false) ∨ w2 = r.repl := by
  induction ts with
  | nil => intro w2 h; simp [subTs, wordsT] at h
  | cons t ts ih =>
    intro w2 h
    cases t with
    | sep c =>
      simp only [subTs, wordsT] at h
      rcases ih w2 h with ⟨h1, h2⟩ | h1
      · exact Or.inl ⟨by simp [wordsT, h1], h2⟩
      · exact Or.inr h1
    | word w =>
      simp only [subTs] at h
      cases hm : runMatches r w with
      | true =>
        rw [hm] at h
        by_cases he : r.repl = []
        · rw [if_pos rfl, if_pos he, List.nil_append] at h
          rcases ih w2 h with ⟨h1, h2⟩ | h1
          · exact Or.inl ⟨by simp [wordsT, h1], h2⟩
          · exact Or.inr h1
        · rw [if_pos rfl, if_neg he, List.singleton_append] at h
          rcases List.mem_cons.mp (by simpa [wordsT] using h) with h1 | h1
          · exact Or.inr h1
          · rcases ih w2 h1 with ⟨h2, h3⟩ | h2
            · exact Or.inl ⟨by simp [wordsT, h2], h3⟩
            · exact Or.inr h2
      | false =>
        rw [hm] at h
        rw [if_neg (by simp), List.singleton_append] at h
        rcases List.mem_cons.mp (by simpa [wordsT] using h) with h1 | h1
        · subst h1
          exact Or.inl ⟨by simp [wordsT], hm⟩
        · rcases ih w2 h1 with ⟨h2, h3⟩ | h2
          · exact Or.inl ⟨by simp [wordsT, h2], h3⟩
          · exact Or.inr h2

theorem subTs_id {r : Rule} {ts : List Tok}
    (h : ∀ w ∈ wordsT ts, runMatches r w = false) : subTs r ts = ts := by
  induction ts with
  | nil => rfl
  | cons t ts ih =>
    cases t with
    | sep c =>
      simp only [subTs]
      rw [ih (fun w hw => h w (by simp [wordsT, hw]))]
    | word w =>
      have hm : runMatches r w = false := h w (by simp [wordsT])
      simp only [subTs, hm]
      rw [if_neg (by simp), List.singleton_append,
        ih (fun w2 hw2 => h w2 (by simp [wordsT, hw2]))]

/-! ## One substitution pass at the string level -/

theorem sub_eq_flatT {r : Rule} (hr : GoodRule r = true) (cs : List Char) :
    sub r cs = flatT (subTs r (tokenize cs)) := by
  have h1 := subW_flatT hr (WFT_tokenize cs)
  rw [flatT_tokenize] at h1
  rw [show sub r cs = subW r false cs from rfl, h1, flatT_subTs]

theorem tokenize_sub {r : Rule} (hr : GoodRule r = true) (cs : List Char) :
    tokenize (sub r cs) = subTs r (tokenize cs) := by
  rw [sub_eq_flatT hr]
  exact tokenize_flatT (WFT_subTs hr (WFT_tokenize cs))

theorem sub_words {r : Rule} (hr : GoodRule r = true) (cs : List Char) :
    ∀ w2 ∈ wordsOf (sub r cs),
      (w2 ∈ wordsOf cs ∧ runMatches r w2 = false) ∨ w2 = r.repl := by
  intro w2 h
  rw [wordsOf, tokenize_sub hr] at h
  exact wordsT_subTs w2 h

theorem sub_fix {r : Rule} (hr : GoodRule r = true) {cs : List Char}
    (h : ∀ w ∈ wordsOf cs, runMatches r w = false) : sub r cs = cs := by
  rw [sub_eq_flatT hr, subTs_id h, flatT_tokenize]

theorem applyRules_nil (cs : List Char) : applyRules [] cs = cs := rfl

theorem applyRules_cons (r : Rule) (rs : List Rule) (cs : List Char) :
    applyRules (r :: rs) cs = applyRules rs (sub r cs) := rfl

theorem applyRules_words {rs : List Rule} (hrs : ∀ r ∈ rs, GoodRule r = true) :
    ∀ cs, ∀ w ∈ wordsOf (applyRules rs cs),
      (w ∈ wordsOf cs ∧ ∀ r ∈ rs, runMatches r w = false) ∨ (∃ r ∈ rs, w = r.repl) := by
  induction rs with
  | nil =>
    intro cs w h
    rw [applyRules_nil] at h
    exact Or.inl ⟨h, by simp⟩
  | cons r0 rs ih =>
    intro cs w h
    rw [applyRules_cons] at h
    have hr0 : GoodRule r0 = true := hrs r0 (by simp)
    rcases ih (fun r hr => hrs r (by simp [hr])) (sub r0 cs) w h with ⟨hmem, hall⟩ | ⟨r, hr, he⟩
    · rcases sub_words hr0 cs w hmem with ⟨hm0, hn0⟩ | he0
      · refine Or.inl ⟨hm0, ?_⟩
        intro r hr
        rcases List.mem_cons.mp hr with h1 | h1
        · rwa [h1]
        · exact hall r h1
      · exact Or.inr ⟨r0, by simp, he0⟩
    · exact Or.inr ⟨r, by simp [hr], he⟩

theorem applyRules_fix {rs : List Rule} {cs : List Char}
    (h : ∀ r ∈ rs, sub r cs = cs) : applyRules rs cs = cs := by
  induction rs with
  | nil => rfl
  | cons r rs ih =>
    rw [applyRules_cons, h r (by simp)]
    exact ih (fun r2 h2 => h r2 (by simp [h2]))

theorem wordsOf_nonword {cs : List Char} (h : ∀ c ∈ cs, isWordChar c = false) :
    wordsOf cs = [] := by
  induction cs with
  | nil => rfl
  | cons c cs ih =>
    have hc : isWordChar c = false := h c (by simp)
    rw [wordsOf]
    simp only [tokenize, hc]
    rw [if_neg (by simp)]
    simp only [wordsT]
    exact ih (fun d hd => h d (by simp [hd]))

/-! ## Facts about the fixed table -/

theorem rules_good : ∀ r ∈ rules, GoodRule r = true := by decide

theorem repl_no_match : ∀ r ∈ rules, ∀ r2 ∈ rules, runMatches r2 r.repl = false := by decide

theorem applyRules_rules_clean (cs : List Char) :
    ∀ w ∈ wordsOf (applyRules rules cs), ∀ r ∈ rules, runMatches r w = false := by
  intro w hw
  rcases applyRules_words rules_good cs w hw with ⟨_, hall⟩ | ⟨r, hr, he⟩
  · exact hall
  · intro r2 hr2
    rw [he]
    exact repl_no_match r hr r2 hr2

/-! ## Whitespace normalisation preserves the word runs -/

theorem collapse_nonws_run {w : List Char} (hne : w ≠ []) (hnws : ∀ c ∈ w, isWS c = false) :
    ∀ b rest, collapseAux b (w ++ rest) = w ++ collapseAux false rest := by
  induction w with
  | nil => exact absurd rfl hne
  | cons c w ih =>
    intro b rest
    have hc : isWS c = false := hnws c (by simp)
    rw [List.cons_append]
    have hstep : collapseAux b (c :: (w ++ rest)) = c :: collapseAux false (w ++ rest) := by
      simp [collapseAux, hc]
    rw [hstep, List.cons_append]
    congr 1
    match w with
    | [] => rfl
    | c2 :: w2 => exact ih (by simp) (fun d hd => hnws d (by simp [hd])) false rest

theorem collapse_words {ts : List Tok} (hts : WFT ts) :
    ∀ b, ∃ ts2, WFT ts2 ∧ flatT ts2 = collapseAux b (flatT ts) ∧ wordsT ts2 = wordsT ts ∧
      (b = false → headNotWord ts → headNotWord ts2) := by
  induction hts with
  | nil => exact fun b => ⟨[], WFT.nil, by cases b <;> rfl, rfl, fun _ _ => trivial⟩
  | @sep c ts hc hts ih =>
    intro b
    by_cases hws : isWS c = true
    · by_cases hb : b = true
      · subst hb
        obtain ⟨ts2, h1, h2, h3, _⟩ := ih true
        refine ⟨ts2, h1, ?_, by simpa [wordsT] using h3, fun hbf _ => absurd hbf (by simp)⟩
        rw [show flatT (Tok.sep c :: ts) = c :: flatT ts from rfl]
        simp [collapseAux, hws, h2]
      · have hb2 : b = false := by simpa using hb
        subst hb2
        obtain ⟨ts2, h1, h2, h3, _⟩ := ih true
        refine ⟨Tok.sep ' ' :: ts2, WFT.sep (by decide) h1, ?_,
          by simpa [wordsT] using h3, fun _ _ => trivial⟩
        rw [show flatT (Tok.sep c :: ts) = c :: flatT ts from rfl]
        rw [show flatT (Tok.sep ' ' :: ts2) = ' ' :: flatT ts2 from rfl]
        simp [collapseAux, hws, h2]
    · have hws2 : isWS c = false := by simpa using hws
      obtain ⟨ts2, h1, h2, h3, _⟩ := ih false
      refine ⟨Tok.sep c :: ts2, WFT.sep hc h1, ?_, by simpa [wordsT] using h3,
        fun _ _ => trivial⟩
      rw [show flatT (Tok.sep c :: ts) = c :: flatT ts from rfl]
      rw [show flatT (Tok.sep c :: ts2) = c :: flatT ts2 from rfl]
      simp [collapseAux, hws2, h2]
  | @word w ts hne hw hh hts ih =>
    intro b
    obtain ⟨ts2, h1, h2, h3, h4⟩ := ih false
    have hnws : ∀ c ∈ w, isWS c = false := fun c hc => word_not_ws (hw c hc)
    refine ⟨Tok.word w :: ts2, WFT.word hne hw (h4 rfl hh) h1, ?_,
      by simpa [wordsT] using h3, fun _ hhh => hhh.elim⟩
    rw [show flatT (Tok.word w :: ts) = w ++ flatT ts from rfl]
    rw [show flatT (Tok.word w :: ts2) = w ++ flatT ts2 from rfl]
    rw [collapse_nonws_run hne hnws b (flatT ts), h2]

theorem dropWhile_words {ts : List Tok} (hts : WFT ts) :
    ∃ ts2, WFT ts2 ∧ flatT ts2 = List.dropWhile isWS (flatT ts) ∧ wordsT ts2 = wordsT ts := by
  induction hts with
  | nil => exact ⟨[], WFT.nil, rfl, rfl⟩
  | @sep c ts hc hts ih =>
    by_cases hws : isWS c = true
    · obtain ⟨ts2, h1, h2, h3⟩ := ih
      refine ⟨ts2, h1, ?_, by simpa [wordsT] using h3⟩
      rw [show flatT (Tok.sep c :: ts) = c :: flatT ts from rfl]
      rw [List.dropWhile_cons, if_pos hws, h2]
    · have hws2 : isWS c = false := by simpa using hws
      refine ⟨Tok.sep c :: ts, WFT.sep hc hts, ?_, rfl⟩
      rw [show flatT (Tok.sep c :: ts) = c :: flatT ts from rfl]
      rw [List.dropWhile_cons, if_neg (by simp [hws2])]
  | @word w ts hne hw hh hts ih =>
    refine ⟨Tok.word w :: ts, WFT.word hne hw hh hts, ?_, rfl⟩
    match w, hne, hw with
    | c :: w2, _, hw =>
      have hc : isWS c = false := word_not_ws (hw c (by simp))
      rw [show flatT (Tok.word (c :: w2) :: ts) = c :: (w2 ++ flatT ts) from rfl]
      rw [List.dropWhile_cons, if_neg (by simp [hc])]

theorem stripEnd_cons (c : Char) (cs : List Char) :
    stripEnd (c :: cs) =
      match stripEnd cs with
      | [] => if isWS c then [] else [c]
      | r => c :: r := rfl

theorem stripEnd_nonws_run {w : List Char} (hnws : ∀ c ∈ w, isWS c = false)
    (rest : List Char) : stripEnd (w ++ rest) = w ++ stripEnd rest := by
  induction w with
  | nil => rfl
  | cons c w ih =>
    have hc : isWS c = false := hnws c (by simp)
    have ih2 := ih (fun d hd => hnws d (by simp [hd]))
    rw [List.cons_append, stripEnd_cons, ih2]
    cases hx : w ++ stripEnd rest with
    | nil =>
      obtain ⟨hw0, hr0⟩ := List.append_eq_nil.mp hx
      subst hw0
      simp [hc, hr0]
    | cons d l =>
      rw [List.cons_append, hx]

theorem stripEnd_words {ts : List Tok} (hts : WFT ts) :
    ∃ ts2, WFT ts2 ∧ flatT ts2 = stripEnd (flatT ts) ∧ wordsT ts2 = wordsT ts ∧
      (headNotWord ts → headNotWord ts2) := by
  induction hts with
  | nil => exact ⟨[], WFT.nil, rfl, rfl, fun _ => trivial⟩
  | @sep c ts hc hts ih =>
    obtain ⟨ts2, h1, h2, h3, _⟩ := ih
    rw [show flatT (Tok.sep c :: ts) = c :: flatT ts from rfl, stripEnd_cons]
    cases hx : stripEnd (flatT ts) with
    | nil =>
      have hts2nil : ts2 = [] := flatT_eq_nil h1 (by rw [h2, hx])
      subst hts2nil
      by_cases hws : isWS c = true
      · refine ⟨[], WFT.nil, ?_, by simpa [wordsT] using h3, fun _ => trivial⟩
        simp [hws, flatT]
      · have hws2 : isWS c = false := by simpa using hws
        refine ⟨[Tok.sep c], WFT.sep hc WFT.nil, ?_, by simpa [wordsT] using h3,
          fun _ => trivial⟩
        simp [hws2]
        rfl
    | cons d l =>
      refine ⟨Tok.sep c :: ts2, WFT.sep hc h1, ?_, by simpa [wordsT] using h3,
        fun _ => trivial⟩
      rw [show flatT (Tok.sep c :: ts2) = c :: flatT ts2 from rfl, h2, hx]
  | @word w ts hne hw hh hts ih =>
    obtain ⟨ts2, h1, h2, h3, h4⟩ := ih
    have hnws : ∀ c ∈ w, isWS c = false := fun c hc => word_not_ws (hw c hc)
    refine ⟨Tok.word w :: ts2, WFT.word hne hw (h4 hh) h1, ?_,
      by simpa [wordsT] using h3, fun hhh => hhh.elim⟩
    rw [show flatT (Tok.word w :: ts) = w ++ flatT ts from rfl]
    rw [show flatT (Tok.word w :: ts2) = w ++ flatT ts2 from rfl]
    rw [stripEnd_nonws_run hnws (flatT ts), h2]

theorem wordsOf_collapseWS (cs : List Char) : wordsOf (collapseWS cs) = wordsOf cs := by
  obtain ⟨ts2, h1, h2, h3, _⟩ := collapse_words (WFT_tokenize cs) false
  rw [flatT_tokenize] at h2
  rw [wordsOf, show collapseWS cs = collapseAux false cs from rfl, ← h2,
    tokenize_flatT h1, h3, wordsOf]

theorem wordsOf_stripWS (cs : List Char) : wordsOf (stripWS cs) = wordsOf cs := by
  obtain ⟨ts2, h1, h2, h3⟩ := dropWhile_words (WFT_tokenize cs)
  rw [flatT_tokenize] at h2
  obtain ⟨ts3, g1, g2, g3, _⟩ := stripEnd_words h1
  rw [h2] at g2
  rw [wordsOf, stripWS, ← g2, tokenize_flatT g1, g3, h3, wordsOf]

/-! ## The normalised form is a fixed point of collapse and strip -/

theorem collapseAux_true_head : ∀ (cs : List Char) (d : Char) (ds : List Char),
    collapseAux true cs = d :: ds → isWS d = false := by
  intro cs
  induction cs with
  | nil => intro d ds h; simp [collapseAux] at h
  | cons c cs ih =>
    intro d ds h
    by_cases hc : isWS c = true
    · rw [show collapseAux true (c :: cs) = collapseAux true cs from by
        simp [collapseAux, hc]] at h
      exact ih d ds h
    · have hc2 : isWS c = false := by simpa using hc
      rw [show collapseAux true (c :: cs) = c :: collapseAux false cs from by
        simp [collapseAux, hc2]] at h
      injection h with h1 _
      exact h1 ▸ hc2

theorem collapseAux_space : ∀ (cs : List Char) (b : Bool) (c : Char),
    c ∈ collapseAux b cs → isWS c = true → c = ' ' := by
  intro cs
  induction cs with
  | nil => intro b c h; simp [collapseAux] at h
  | cons c0 cs ih =>
    intro b c h hws
    by_cases hc : isWS c0 = true
    · cases b with
      | true =>
        rw [show collapseAux true (c0 :: cs) = collapseAux true cs from by
          simp [collapseAux, hc]] at h
        exact ih true c h hws
      | false =>
        rw [show collapseAux false (c0 :: cs) = ' ' :: collapseAux true cs from by
          simp [collapseAux, hc]] at h
        rcases List.mem_cons.mp h with h1 | h1
        · exact h1
        · exact ih true c h1 hws
    · have hc2 : isWS c0 = false := by simpa using hc
      rw [show collapseAux b (c0 :: cs) = c0 :: collapseAux false cs from by
        simp [collapseAux, hc2]] at h
      rcases List.mem_cons.mp h with h1 | h1
      · exact absurd (h1 ▸ hws) (by simp [hc2])
      · exact ih false c h1 hws

theorem noAdjWS_cons {x : Char} {l : List Char}
    (hx : ∀ d ds, l = d :: ds → (isWS x && isWS d) = false)
    (hl : noAdjWS l = true) : noAdjWS (x :: l) = true := by
  match l with
  | [] => rfl
  | d :: ds =>
    simp only [noAdjWS, Bool.and_eq_true]
    exact ⟨by simp [hx d ds rfl], hl⟩

theorem noAdjWS_collapseAux : ∀ (cs : List Char) (b : Bool),
    noAdjWS (collapseAux b cs) = true := by
  intro cs
  induction cs with
  | nil => intro b; rfl
  | cons c cs ih =>
    intro b
    by_cases hc : isWS c = true
    · cases b with
      | true =>
        rw [show collapseAux true (c :: cs) = collapseAux true cs from by
          simp [collapseAux, hc]]
        exact ih true
      | false =>
        rw [show collapseAux false (c :: cs) = ' ' :: collapseAux true cs from by
          simp [collapseAux, hc]]
        refine noAdjWS_cons ?_ (ih true)
        intro d ds h
        rw [collapseAux_true_head cs d ds h]
        simp
    · have hc2 : isWS c = false := by simpa using hc
      rw [show collapseAux b (c :: cs) = c :: collapseAux false cs from by
        simp [collapseAux, hc2]]
      refine noAdjWS_cons ?_ (ih false)
      intro d ds _
      simp [hc2]

theorem noAdjWS_tail {c : Char} {l : List Char} (h : noAdjWS (c :: l) = true) :
    noAdjWS l = true := by
  match l with
  | [] => rfl
  | d :: ds =>
    simp only [noAdjWS, Bool.and_eq_true] at h
    exact h.2

theorem noAdjWS_dropWhile {l : List Char} (h : noAdjWS l = true) :
    noAdjWS (List.dropWhile isWS l) = true := by
  induction l with
  | nil => exact h
  | cons c l ih =>
    rw [List.dropWhile_cons]
    split
    · exact ih (noAdjWS_tail h)
    · exact h

theorem stripEnd_prefixOf : ∀ cs : List Char, (stripEnd cs).IsPrefix cs := by
  intro cs
  induction cs with
  | nil => exact List.prefix_refl _
  | cons c cs ih =>
    rw [stripEnd_cons]
    cases hx : stripEnd cs with
    | nil =>
      show (if isWS c then [] else [c]).IsPrefix (c :: cs)
      by_cases hc : isWS c = true
      · rw [if_pos hc]
        exact List.nil_prefix
      · rw [if_neg hc]
        exact ⟨cs, rfl⟩
    | cons d ds =>
      rw [hx] at ih
      obtain ⟨t, ht⟩ := ih
      exact ⟨t, by rw [List.cons_append, ht]⟩

theorem noAdjWS_prefixOf : ∀ (l2 l : List Char), noAdjWS l = true → l2.IsPrefix l →
    noAdjWS l2 = true := by
  intro l2
  induction l2 with
  | nil => intro l _ _; rfl
  | cons x l2 ih =>
    intro l h hp
    obtain ⟨t, ht⟩ := hp
    subst ht
    rw [List.cons_append] at h
    match l2, h, ih with
    | [], _, _ => rfl
    | y :: l2x, h, ih =>
      rw [List.cons_append] at h
      simp only [noAdjWS, Bool.and_eq_true] at h ⊢
      refine ⟨h.1, ?_⟩
      exact ih (y :: (l2x ++ t)) h.2 ⟨t, by rw [List.cons_append]⟩

theorem collapseAux_fix : ∀ cs : List Char, noAdjWS cs = true →
    (∀ c ∈ cs, isWS c = true → c = ' ') →
    collapseAux false cs = cs ∧
      ((∀ d ds, cs = d :: ds → isWS d = false) → collapseAux true cs = cs) := by
  intro cs
  induction cs with
  | nil => exact fun _ _ => ⟨rfl, fun _ => rfl⟩
  | cons c cs ih =>
    intro hadj hsp
    obtain ⟨ih1, ih2⟩ := ih (noAdjWS_tail hadj) (fun d hd hw => hsp d (by simp [hd]) hw)
    by_cases hc : isWS c = true
    · have hcsp : c = ' ' := hsp c (by simp) hc
      constructor
      · rw [show collapseAux false (c :: cs) = ' ' :: collapseAux true cs from by
          simp [collapseAux, hc]]
        rw [hcsp]
        congr 1
        apply ih2
        intro d ds hds
        subst hds
        simp only [noAdjWS, Bool.and_eq_true] at hadj
        have h1 := hadj.1
        rw [hc] at h1
        simpa using h1
      · intro hhead
        exact absurd hc (by simp [hhead c cs rfl])
    · have hc2 : isWS c = false := by simpa using hc
      have hstep : ∀ b2, collapseAux b2 (c :: cs) = c :: collapseAux false cs :=
        fun b2 => by simp [collapseAux, hc2]
      exact ⟨by rw [hstep false, ih1], fun _ => by rw [hstep true, ih1]⟩

theorem stripEnd_fix : ∀ cs : List Char,
    (∀ c, cs.getLast? = some c → isWS c = false) → stripEnd cs = cs := by
  intro cs
  induction cs with
  | nil => intro _; rfl
  | cons c cs ih =>
    intro h
    match cs, ih, h with
    | [], _, h =>
      have hc : isWS c = false := h c rfl
      simp [stripEnd, hc]
    | d :: ds, ih, h =>
      have ih2 : stripEnd (d :: ds) = d :: ds :=
        ih (fun e he => h e (by rw [List.getLast?_cons_cons]; exact he))
      rw [stripEnd_cons, ih2]

theorem stripEnd_getLast : ∀ (cs : List Char) (c : Char),
    (stripEnd cs).getLast? = some c → isWS c = false := by
  intro cs
  induction cs with
  | nil => intro c h; simp [stripEnd] at h
  | cons c0 cs ih =>
    intro c h
    cases hx : stripEnd cs with
    | nil =>
      rw [stripEnd_cons, hx] at h
      by_cases hc0 : isWS c0 = true
      · simp [hc0] at h
      · have hc2 : isWS c0 = false := by simpa using hc0
        simp only [hc2] at h
        simp only [Bool.false_eq_true, if_false, List.getLast?_singleton,
          Option.some.injEq] at h
        exact h ▸ hc2
    | cons d ds =>
      rw [stripEnd_cons, hx] at h
      apply ih c
      rw [hx]
      rw [List.getLast?_cons_cons] at h
      exact h

theorem dropWhile_head_fix {cs : List Char}
    (h : ∀ d ds, cs = d :: ds → isWS d = false) : List.dropWhile isWS cs = cs := by
  match cs with
  | [] => rfl
  | d :: ds => rw [List.dropWhile_cons, if_neg (by simp [h d ds rfl])]

theorem dropWhile_head : ∀ (cs : List Char) (d : Char) (ds : List Char),
    List.dropWhile isWS cs = d :: ds → isWS d = false := by
  intro cs
  induction cs with
  | nil => intro d ds h; simp at h
  | cons c cs ih =>
    intro d ds h
    rw [List.dropWhile_cons] at h
    split at h
    · exact ih d ds h
    · rename_i hc
      injection h with h1 _
      rw [← h1]
      simpa using hc

theorem stripEnd_head {cs : List Char} {d : Char} {ds : List Char}
    (h : stripEnd cs = d :: ds) : ∃ t, cs = d :: t := by
  have hp := stripEnd_prefixOf cs
  rw [h] at hp
  obtain ⟨t, ht⟩ := hp
  exact ⟨ds ++ t, by rw [← ht, List.cons_append]⟩

theorem stripWS_head : ∀ (cs : List Char) (d : Char) (ds : List Char),
    stripWS cs = d :: ds → isWS d = false := by
  intro cs d ds h
  rw [stripWS] at h
  obtain ⟨t, ht⟩ := stripEnd_head h
  exact dropWhile_head cs d t ht

theorem stripWS_fix {cs : List Char} (hh : ∀ d ds, cs = d :: ds → isWS d = false)
    (hl : ∀ c, cs.getLast? = some c → isWS c = false) : stripWS cs = cs := by
  rw [stripWS, dropWhile_head_fix hh, stripEnd_fix cs hl]

theorem normalize_idem (cs : List Char) :
    stripWS (collapseWS (stripWS (collapseWS cs))) = stripWS (collapseWS cs) := by
  have hadj : noAdjWS (stripWS (collapseWS cs)) = true := by
    rw [stripWS]
    exact noAdjWS_prefixOf _ _ (noAdjWS_dropWhile (noAdjWS_collapseAux cs false))
      (stripEnd_prefixOf _)
  have hsp : ∀ c ∈ stripWS (collapseWS cs), isWS c = true → c = ' ' := by
    intro c hc hw
    apply collapseAux_space cs false c _ hw
    rw [stripWS] at hc
    have h1 : c ∈ List.dropWhile isWS (collapseWS cs) := (stripEnd_prefixOf _).subset hc
    exact (List.dropWhile_sublist _).subset h1
  have hhead : ∀ d ds, stripWS (collapseWS cs) = d :: ds → isWS d = false :=
    fun d ds h => stripWS_head _ d ds h
  have hlast : ∀ c, (stripWS (collapseWS cs)).getLast? = some c → isWS c = false := by
    intro c h
    rw [stripWS] at h
    exact stripEnd_getLast _ c h
  have hcol : collapseWS (stripWS (collapseWS cs)) = stripWS (collapseWS cs) :=
    (collapseAux_fix _ hadj hsp).1
  rw [hcol, stripWS_fix hhead hlast]

/-! ## Labeler lemmas -/

theorem labelBlocksAux_length (t : Bool) (bs : List (List Char)) :
    (labelBlocksAux t bs).1.length = bs.length := by
  induction bs generalizing t with
  | nil => rfl
  | cons b bs ih => simp [labelBlocksAux, ih]

theorem labelBlocksAux_state (t : Bool) (bs : List (List Char)) :
    (labelBlocksAux t bs).2 =
      if bs.countP (fun x => hasArrow x) % 2 = 0 then t else !t := by
  induction bs generalizing t with
  | nil => simp [labelBlocksAux]
  | cons b bs ih =>
    show (labelBlocksAux (labelBlock t b).2 bs).2 = _
    rw [ih]
    by_cases hbar : hasArrow b = true
    · rw [List.countP_cons_of_pos _ _ (by simpa using hbar)]
      by_cases hp : bs.countP (fun x => hasArrow x) % 2 = 0
      · have hp2 : ¬(bs.countP (fun x => hasArrow x) + 1) % 2 = 0 := by omega
        simp [labelBlock, hbar, hp, hp2]
      · have hp2 : (bs.countP (fun x => hasArrow x) + 1) % 2 = 0 := by omega
        simp [labelBlock, hbar, hp, hp2]
    · have hbar2 : hasArrow b = false := by simpa using hbar
      rw [List.countP_cons_of_neg _ _ (by simp [hbar2])]
      simp [labelBlock, hbar2]

theorem labelBlocksAux_getElem? (t : Bool) (bs : List (List Char)) (i : Nat)
    (blk : List Char) (h : bs[i]? = some blk) :
    (labelBlocksAux t bs).1[i]? =
      some (labelBlock
        (if (bs.take i).countP (fun x => hasArrow x) % 2 = 0 then t else !t) blk).1 := by
  induction bs generalizing t i with
  | nil => simp at h
  | cons b bs ih =>
    cases i with
    | zero =>
      rw [List.getElem?_cons_zero] at h
      injection h with h
      subst h
      simp [labelBlocksAux]
    | succ i =>
      rw [List.getElem?_cons_succ] at h
      have hrec := ih (labelBlock t b).2 i h
      have hgoal : (labelBlocksAux t (b :: bs)).1[i + 1]? =
          (labelBlocksAux (labelBlock t b).2 bs).1[i]? := by
        simp [labelBlocksAux]
      rw [hgoal, hrec]
      have hstate : (if (bs.take i).countP (fun x => hasArrow x) % 2 = 0
            then (labelBlock t b).2 else !(labelBlock t b).2) =
          (if ((b :: bs).take (i + 1)).countP (fun x => hasArrow x) % 2 = 0
            then t else !t) := by
        rw [List.take_succ_cons]
        by_cases hbar : hasArrow b = true
        · rw [List.countP_cons_of_pos _ _ (by simpa using hbar)]
          by_cases hp : (bs.take i).countP (fun x => hasArrow x) % 2 = 0
          · have hp2 : ¬((bs.take i).countP (fun x => hasArrow x) + 1) % 2 = 0 := by omega
            simp [labelBlock, hbar, hp, hp2]
          · have hp2 : ((bs.take i).countP (fun x => hasArrow x) + 1) % 2 = 0 := by omega
            simp [labelBlock, hbar, hp, hp2]
        · have hbar2 : hasArrow b = false := by simpa using hbar
          rw [List.countP_cons_of_neg _ _ (by simp [hbar2])]
          simp [labelBlock, hbar2]
      rw [hstate]

theorem labelBlocksAux_append (t : Bool) (xs ys : List (List Char)) :
    labelBlocksAux t (xs ++ ys) =
      ((labelBlocksAux t xs).1 ++ (labelBlocksAux (labelBlocksAux t xs).2 ys).1,
        (labelBlocksAux (labelBlocksAux t xs).2 ys).2) := by
  induction xs generalizing t with
  | nil => simp [labelBlocksAux]
  | cons x xs ih => simp [labelBlocksAux, ih]

theorem prefixLast_append (pre : List Char) (init : List (List Char)) (last : List Char) :
    prefixLast pre (init ++ [last]) = init ++ [pre ++ last] := by
  induction init with
  | nil => rfl
  | cons x init ih =>
    match init with
    | [] => rfl
    | y :: init2 =>
      rw [List.cons_append]
      rw [show prefixLast pre (x :: ((y :: init2) ++ [last])) =
        x :: prefixLast pre ((y :: init2) ++ [last]) from rfl]
      rw [ih]
      rfl

theorem splitNL_ne_nil (cs : List Char) : splitNL cs ≠ [] := by
  match cs with
  | [] => simp [splitNL]
  | c :: cs =>
    simp only [splitNL]
    split
    · simp
    · split <;> simp

theorem joinSep_cons_cons (sep x y : List Char) (ys : List (List Char)) :
    joinSep sep (x :: y :: ys) = x ++ sep ++ joinSep sep (y :: ys) := rfl

theorem joinSep_splitNL : ∀ cs : List Char, joinSep nl1 (splitNL cs) = cs := by
  intro cs
  induction cs with
  | nil => rfl
  | cons c cs ih =>
    by_cases hc : c = '\n'
    · subst hc
      rw [show splitNL ('\n' :: cs) = [] :: splitNL cs from by simp [splitNL]]
      cases hx : splitNL cs with
      | nil => exact absurd hx (splitNL_ne_nil cs)
      | cons r rs =>
        rw [joinSep_cons_cons, ← hx, ih]
        rfl
    · have hc2 : (c == '\n') = false := beq_eq_false_iff_ne.mpr hc
      rw [show splitNL (c :: cs) =
        (match splitNL cs with | r :: rs => (c :: r) :: rs | [] => [[c]]) from by
          simp only [splitNL]; rw [if_neg (by simp [hc2])]]
      cases hx : splitNL cs with
      | nil => exact absurd hx (splitNL_ne_nil cs)
      | cons r rs =>
        rw [hx] at ih
        cases rs with
        | nil =>
          show c :: r = c :: cs
          rw [show joinSep nl1 [r] = r from rfl] at ih
          rw [ih]
        | cons r2 rs2 =>
          show (c :: r) ++ nl1 ++ joinSep nl1 (r2 :: rs2) = c :: cs
          rw [joinSep_cons_cons] at ih
          rw [← ih]
          simp

/-! ## Claim theorems -/

/-- C1: for the input line `"Uhh okey test ey"` the Corrector returns
exactly `"okay test eye"`: the filler word is removed, `"okey"` becomes
`"okay"`, `"ey"` becomes `"eye"`, and whitespace is collapsed and
trimmed. -/
theorem c1_concrete_correction :
    clean_spoken_text "Uhh okey test ey".data = "okay test eye".data := by decide

/-- C7: a line that is empty, contains the range marker `"-->"`, or
strips to the header token `"WEBVTT"` is returned by the Corrector
unchanged. -/
theorem c7_passthrough_lines (line : List Char)
    (h : line = [] ∨ containsSub arrow line = true ∨ stripWS line = webvtt) :
    clean_spoken_text line = line := by
  have hp : passThrough line = true := by
    rcases h with h | h | h
    · simp [passThrough, h]
    · simp [passThrough, h]
    · simp [passThrough, h]
  simp [clean_spoken_text, hp]

theorem c7_witness :
    ("WEBVTT".data = [] ∨ containsSub arrow "WEBVTT".data = true ∨
      stripWS "WEBVTT".data = webvtt) ∧
    clean_spoken_text "WEBVTT".data = "WEBVTT".data :=
  ⟨Or.inr (Or.inr (by decide)),
    c7_passthrough_lines "WEBVTT".data (Or.inr (Or.inr (by decide)))⟩

/-- C3 counterexample: the line `" WEBVTT"` is nonempty, has no
`"-->"`, and is not exactly the header token `"WEBVTT"`, so the claim
asserts the rule pipeline runs on it (which would trim it to
`"WEBVTT"`); but the code's guard tests `line.strip() == "WEBVTT"` and
returns the line unchanged as `" WEBVTT"`. -/
theorem c3_counterexample :
    " WEBVTT".data ≠ [] ∧ containsSub arrow " WEBVTT".data = false ∧
    " WEBVTT".data ≠ webvtt ∧
    clean_spoken_text " WEBVTT".data = " WEBVTT".data ∧
    stripWS (collapseWS (rules.foldl (fun acc r => sub r acc) " WEBVTT".data)) =
      "WEBVTT".data ∧
    " WEBVTT".data ≠ "WEBVTT".data := by decide

/-- C3 (amended): every line that is not empty, does not contain
`"-->"`, and does not STRIP to the header token `"WEBVTT"` is processed
by applying every rule of the fixed table in table order (each a
case-insensitive global replace-all within the line) and then
collapsing whitespace runs to single spaces and trimming the ends. -/
theorem c3_rule_pipeline (line : List Char) (h1 : line ≠ [])
    (h2 : containsSub arrow line = false) (h3 : stripWS line ≠ webvtt) :
    clean_spoken_text line =
      stripWS (collapseWS (rules.foldl (fun acc r => sub r acc) line)) := by
  have hp : passThrough line = false := by
    simp only [passThrough, Bool.or_eq_false_iff]
    refine ⟨⟨?_, h2⟩, ?_⟩
    · simpa using h1
    · simpa using h3
  simp [clean_spoken_text, hp, applyRules]

theorem c3_witness :
    ("Uhh okey test ey".data ≠ [] ∧
      containsSub arrow "Uhh okey test ey".data = false ∧
      stripWS "Uhh okey test ey".data ≠ webvtt) ∧
    clean_spoken_text "Uhh okey test ey".data =
      stripWS (collapseWS
        (rules.foldl (fun acc r => sub r acc) "Uhh okey test ey".data)) :=
  ⟨⟨by decide, by decide, by decide⟩,
    c3_rule_pipeline "Uhh okey test ey".data (by decide) (by decide) (by decide)⟩

/-- C8: the Transcription Client's computed backoff wait before retry
attempt `k` is `5 * 2^k` seconds, giving 5, 10, 20, 40, 80 seconds for
attempts 0 through 4 (modelled from the spec: the retry loop is not in
`src/`). -/
theorem c8_backoff_waits :
    (∀ k, backoffWait k = 5 * 2 ^ k) ∧
    [backoffWait 0, backoffWait 1, backoffWait 2, backoffWait 3, backoffWait 4] =
      [5, 10, 20, 40, 80] :=
  ⟨fun _ => rfl, by decide⟩

/-- C2: the Nth timing-bearing block (1-indexed, over blocks split on
blank-line boundaries) is processed with the role `"Optometrist"` when
N is odd and `"Patient"` when N is even, regardless of content. -/
theorem c2_strict_alternation (text : List Char) (i : Nat) (blk : List Char)
    (hget : (splitNL2 text)[i]? = some blk) (harrow : hasArrow blk = true) :
    (labelBlocksAux true (splitNL2 text)).1[i]? =
      some (tagBlock
        (if ((splitNL2 text).take (i + 1)).countP (fun x => hasArrow x) % 2 = 1
          then "Optometrist".data else "Patient".data) blk) := by
  rw [labelBlocksAux_getElem? true (splitNL2 text) i blk hget]
  have htake : (splitNL2 text).take (i + 1) = (splitNL2 text).take i ++ [blk] := by
    rw [List.take_succ, hget]
    rfl
  rw [htake, List.countP_append]
  rw [show List.countP (fun x => hasArrow x) [blk] = 1 from by simp [harrow]]
  by_cases hp : ((splitNL2 text).take i).countP (fun x => hasArrow x) % 2 = 0
  · have hp2 : (((splitNL2 text).take i).countP (fun x => hasArrow x) + 1) % 2 = 1 := by
      omega
    simp [hp, hp2, labelBlock, harrow, speakerFor]
  · have hp2 : ¬(((splitNL2 text).take i).countP (fun x => hasArrow x) + 1) % 2 = 1 := by
      omega
    simp [hp, hp2, labelBlock, harrow, speakerFor]

theorem c2_witness :
    ((splitNL2 "0 --> 1\na\n\n2 --> 3\nb".data)[1]? = some "2 --> 3\nb".data ∧
      hasArrow "2 --> 3\nb".data = true) ∧
    (labelBlocksAux true (splitNL2 "0 --> 1\na\n\n2 --> 3\nb".data)).1[1]? =
      some (tagBlock
        (if ((splitNL2 "0 --> 1\na\n\n2 --> 3\nb".data).take 2).countP
              (fun x => hasArrow x) % 2 = 1
          then "Optometrist".data else "Patient".data) "2 --> 3\nb".data) :=
  ⟨⟨by decide, by decide⟩,
    c2_strict_alternation "0 --> 1\na\n\n2 --> 3\nb".data 1 "2 --> 3\nb".data
      (by decide) (by decide)⟩

/-- C6: a block without a timing line passes through the Labeler
unmodified and leaves the alternation state unchanged. -/
theorem c6_nonTiming_passthrough (text : List Char) (i : Nat) (blk : List Char)
    (hget : (splitNL2 text)[i]? = some blk) (hnoarrow : hasArrow blk = false) :
    (labelBlocksAux true (splitNL2 text)).1[i]? = some blk ∧
    (labelBlocksAux true ((splitNL2 text).take (i + 1))).2 =
      (labelBlocksAux true ((splitNL2 text).take i)).2 := by
  constructor
  · rw [labelBlocksAux_getElem? true (splitNL2 text) i blk hget]
    simp [labelBlock, hnoarrow]
  · have htake : (splitNL2 text).take (i + 1) = (splitNL2 text).take i ++ [blk] := by
      rw [List.take_succ, hget]
      rfl
    rw [htake, labelBlocksAux_append]
    simp [labelBlocksAux, labelBlock, hnoarrow]

theorem c6_witness :
    ((splitNL2 "0 --> 1\nx\n\nplain".data)[1]? = some "plain".data ∧
      hasArrow "plain".data = false) ∧
    ((labelBlocksAux true (splitNL2 "0 --> 1\nx\n\nplain".data)).1[1]? =
        some "plain".data ∧
      (labelBlocksAux true ((splitNL2 "0 --> 1\nx\n\nplain".data).take 2)).2 =
        (labelBlocksAux true ((splitNL2 "0 --> 1\nx\n\nplain".data).take 1)).2) :=
  ⟨⟨by decide, by decide⟩,
    c6_nonTiming_passthrough "0 --> 1\nx\n\nplain".data 1 "plain".data
      (by decide) (by decide)⟩

/-- C10: a timing-bearing block of exactly one line gets no role
prefix (it is output unchanged), yet it still flips the alternation
state for the next timing-bearing block. -/
theorem c10_singleline_timing (text : List Char) (i : Nat) (blk : List Char)
    (hget : (splitNL2 text)[i]? = some blk) (harrow : hasArrow blk = true)
    (hone : (splitNL blk).length = 1) :
    (labelBlocksAux true (splitNL2 text)).1[i]? = some blk ∧
    (labelBlocksAux true ((splitNL2 text).take (i + 1))).2 =
      !(labelBlocksAux true ((splitNL2 text).take i)).2 := by
  have htag : ∀ s, tagBlock s blk = blk := by
    intro s
    show joinSep nl1
      (if 1 < (splitNL blk).length then prefixLast (s ++ [':', ' ']) (splitNL blk)
        else splitNL blk) = blk
    rw [hone, if_neg (by omega), joinSep_splitNL]
  constructor
  · rw [labelBlocksAux_getElem? true (splitNL2 text) i blk hget]
    simp [labelBlock, harrow, htag]
  · have htake : (splitNL2 text).take (i + 1) = (splitNL2 text).take i ++ [blk] := by
      rw [List.take_succ, hget]
      rfl
    rw [htake, labelBlocksAux_append]
    simp [labelBlocksAux, labelBlock, harrow]

theorem c10_witness :
    ((splitNL2 "0 --> 1\n\n2 --> 3\nx".data)[0]? = some "0 --> 1".data ∧
      hasArrow "0 --> 1".data = true ∧
      (splitNL "0 --> 1".data).length = 1) ∧
    ((labelBlocksAux true (splitNL2 "0 --> 1\n\n2 --> 3\nx".data)).1[0]? =
        some "0 --> 1".data ∧
      (labelBlocksAux true ((splitNL2 "0 --> 1\n\n2 --> 3\nx".data).take 1)).2 =
        !(labelBlocksAux true ((splitNL2 "0 --> 1\n\n2 --> 3\nx".data).take 0)).2) :=
  ⟨⟨by decide, by decide, by decide⟩,
    c10_singleline_timing "0 --> 1\n\n2 --> 3\nx".data 0 "0 --> 1".data
      (by decide) (by decide) (by decide)⟩

/-- C5 counterexample: for the block `"hi\n0 --> 1"`, whose last line
is its timing line, the Labeler appends the role prefix to the timing
line itself (and not to the text line `"hi"`), refuting "appends the
role prefix to the block's last text line and never to its timing
line" as a universal statement. -/
theorem c5_counterexample :
    splitNL (label_speakers "hi\n0 --> 1".data) =
      ["hi".data, "Optometrist: 0 --> 1".data] ∧
    hasArrow "Optometrist: 0 --> 1".data = true ∧
    hasArrow "hi".data = false := by decide

/-- C5 amended: for every timing-bearing block with more than one
line, the Labeler appends the role prefix to the block's last line,
whatever it is, and leaves every other line unchanged; the prefix
therefore lands on the last text line (never on the timing line) only
when the block's last line is not itself the timing line. -/
theorem c5_amended_prefix_last_line (t : Bool) (block : List Char)
    (init : List (List Char)) (last : List Char) (harrow : hasArrow block = true)
    (hsplit : splitNL block = init ++ [last]) (hinit : init ≠ []) :
    (labelBlock t block).1 =
      joinSep nl1 (init ++ [speakerFor t ++ [':', ' '] ++ last]) := by
  have hlen : 1 < (init ++ [last]).length := by
    have hpos : 0 < init.length := List.length_pos.mpr hinit
    have hl2 : (init ++ [last]).length = init.length + 1 := by simp
    omega
  simp only [labelBlock, harrow, if_true]
  show tagBlock (speakerFor t) block = _
  show joinSep nl1
    (if 1 < (splitNL block).length
      then prefixLast (speakerFor t ++ [':', ' ']) (splitNL block)
      else splitNL block) = _
  rw [hsplit, if_pos hlen, prefixLast_append]

theorem c5_witness :
    (hasArrow "hello\n0 --> 1\nbye".data = true ∧
      splitNL "hello\n0 --> 1\nbye".data =
        ["hello".data, "0 --> 1".data] ++ ["bye".data] ∧
      (["hello".data, "0 --> 1".data] : List (List Char)) ≠ []) ∧
    (labelBlock true "hello\n0 --> 1\nbye".data).1 =
      joinSep nl1 (["hello".data, "0 --> 1".data] ++
        ["Optometrist".data ++ [':', ' '] ++ "bye".data]) :=
  ⟨⟨by decide, by decide, by decide⟩,
    c5_amended_prefix_last_line true "hello\n0 --> 1\nbye".data
      ["hello".data, "0 --> 1".data] "bye".data (by decide) (by decide) (by decide)⟩

/-- C9: every line past the pass-through guard comes out with no
leading or trailing whitespace and no run of two or more consecutive
whitespace characters; in particular a nonempty all-whitespace line is
mapped to the empty string. -/
theorem c9_output_normalized (line : List Char) (h1 : line ≠ [])
    (h2 : containsSub arrow line = false) (h3 : stripWS line ≠ webvtt) :
    noAdjWS (clean_spoken_text line) = true ∧
    (∀ d ds, clean_spoken_text line = d :: ds → isWS d = false) ∧
    (∀ c, (clean_spoken_text line).getLast? = some c → isWS c = false) ∧
    ((∀ c ∈ line, isWS c = true) → clean_spoken_text line = []) := by
  have hp : passThrough line = false := by
    simp only [passThrough, Bool.or_eq_false_iff]
    refine ⟨⟨?_, h2⟩, ?_⟩
    · simpa using h1
    · simpa using h3
  have hcl : clean_spoken_text line = stripWS (collapseWS (applyRules rules line)) := by
    simp [clean_spoken_text, hp]
  refine ⟨?_, ?_, ?_, ?_⟩
  · rw [hcl, stripWS]
    exact noAdjWS_prefixOf _ _ (noAdjWS_dropWhile (noAdjWS_collapseAux _ false))
      (stripEnd_prefixOf _)
  · intro d ds h
    rw [hcl] at h
    exact stripWS_head _ d ds h
  · intro c h
    rw [hcl, stripWS] at h
    exact stripEnd_getLast _ c h
  · intro hws
    have hnw : ∀ c ∈ line, isWordChar c = false := fun c hc => isWS_nonword (hws c hc)
    have hfix : applyRules rules line = line := by
      apply applyRules_fix
      intro r hr
      apply sub_fix (rules_good r hr)
      rw [wordsOf_nonword hnw]
      simp
    rw [hcl, hfix]
    have hcol : ∀ cs : List Char, (∀ c ∈ cs, isWS c = true) → collapseAux true cs = [] := by
      intro cs
      induction cs with
      | nil => intro _; rfl
      | cons c cs ih =>
        intro h
        rw [show collapseAux true (c :: cs) = collapseAux true cs from by
          simp [collapseAux, h c (by simp)]]
        exact ih (fun d hd => h d (by simp [hd]))
    cases line with
    | nil => exact absurd rfl h1
    | cons c cs =>
      rw [show collapseWS (c :: cs) = ' ' :: collapseAux true cs from by
        simp [collapseWS, collapseAux, hws c (by simp)]]
      rw [hcol cs (fun d hd => hws d (by simp [hd]))]
      rfl

theorem c9_witness :
    ("   ".data ≠ [] ∧ containsSub arrow "   ".data = false ∧
      stripWS "   ".data ≠ webvtt ∧ (∀ c ∈ "   ".data, isWS c = true)) ∧
    clean_spoken_text "   ".data = [] :=
  ⟨⟨by decide, by decide, by decide, by decide⟩,
    (c9_output_normalized "   ".data (by decide) (by decide) (by decide)).2.2.2
      (by decide)⟩

/-- C4: the Corrector is idempotent with its fixed rule table: a second
pass over already-corrected text produces no further changes. -/
theorem c4_corrector_idempotent (line : List Char) :
    clean_spoken_text (clean_spoken_text line) = clean_spoken_text line := by
  by_cases hp : passThrough line = true
  · have h1 : clean_spoken_text line = line := by simp [clean_spoken_text, hp]
    rw [h1]
    exact h1
  · have hp2 : passThrough line = false := by simpa using hp
    set y := clean_spoken_text line with hy
    have hcly : y = stripWS (collapseWS (applyRules rules line)) := by
      rw [hy]
      simp [clean_spoken_text, hp2]
    have hwords : ∀ w ∈ wordsOf y, ∀ r ∈ rules, runMatches r w = false := by
      rw [hcly, wordsOf_stripWS, wordsOf_collapseWS]
      exact applyRules_rules_clean line
    have hfix : applyRules rules y = y := by
      apply applyRules_fix
      intro r hr
      exact sub_fix (rules_good r hr) (fun w hw => hwords w hw r hr)
    by_cases hpy : passThrough y = true
    · simp [clean_spoken_text, hpy]
    · have hpy2 : passThrough y = false := by simpa using hpy
      have hout : clean_spoken_text y = stripWS (collapseWS (applyRules rules y)) := by
        simp [clean_spoken_text, hpy2]
      rw [hout, hfix, hcly, normalize_idem]

end EyeTest
